import Mathlib

/-!
# Verification of the 1×N strip tiling counter (`tilings.py`)

Shallow embedding of the counting engine in `src/python/tilings.py`:
the validator `is_valid`, the brute-force enumerator
(`brute_all_tilings`, `brute_num_tilings`, `brute_partial_num_tilings`)
and the memoized recurrence counter
(`partial_num_tilings`, `num_tilings`).

Python `int` values are modelled by `Int` (Python integers are unbounded);
tile markers are the integers 1 (unit), 2 (domino head) and 3 (domino tail).
Memoization (`lru_cache`) is a pure cache and does not change the value of
any function, so the embedding is the underlying pure recursion.
-/

namespace Tilings

/-- Models `int(scipy.special.comb(n, k))` with scipy's default `exact=False`:
scipy masks the result to 0 unless `0 ≤ k`, `0 ≤ n` and `k ≤ n`
(its condition is `(k <= N) & (N >= 0) & (k >= 0)`); inside that range it
computes the binomial coefficient (for the small in-range arguments reached
by this program the floating-point value is exactly the integer
`Nat.choose`, so truncation by `int(...)` is the identity). -/
def comb (n k : Int) : Int :=
  if 0 ≤ k ∧ 0 ≤ n ∧ k ≤ n then (n.toNat.choose k.toNat : Int) else 0

/-- One step of the validation loop of `is_valid` (`tilings.py` lines 39-53):
the check performed for position `i` of the candidate tiling.  The Python
code only indexes `tiling[i+1]` / `tiling[i-1]` behind the corresponding
bound guard (`and` short-circuits), so the `getD` default 0 is never
the value actually compared. -/
def tileOk (tiling : List Int) (i : Nat) : Bool :=
  let tile := tiling.getD i 0
  if tile = 1 then true
  else if tile = 2 then
    decide (i < tiling.length - 1) && decide (tiling.getD (i + 1) 0 = 3)
  else if tile = 3 then
    decide (0 < i) && decide (tiling.getD (i - 1) 0 = 2)
  else false

/-- The `for i, tile in enumerate(tiling)` loop of `is_valid`:
every position must pass its check. -/
def posCheck (tiling : List Int) : Bool :=
  (List.range tiling.length).all (fun i => tileOk tiling i)

/-- `is_valid(tiling, twos)` (`tilings.py` lines 23-54): if `twos` is given
and the number of 2-markers differs, return `False`; otherwise run the
positional scan. -/
def is_valid (tiling : List Int) (twos : Option Int) : Bool :=
  match twos with
  | some t => if (tiling.count 2 : Int) ≠ t then false else posCheck tiling
  | none => posCheck tiling

/-- `itertools.product([1, 2, 3], repeat=cols)`: all marker sequences of
length `cols`, first coordinate varying slowest.  (`repeat` must be
non-negative in Python, hence the `Nat` argument.) -/
def allLists : Nat → List (List Int)
  | 0 => [[]]
  | n + 1 => ([1, 2, 3] : List Int).flatMap (fun a => (allLists n).map (a :: ·))

/-- `brute_all_tilings(cols)` (`tilings.py` lines 56-69): generate all
candidate sequences and keep the valid ones. -/
def brute_all_tilings (cols : Nat) : List (List Int) :=
  (allLists cols).filter (fun x => is_valid x none)

/-- `brute_num_tilings(cols)` (`tilings.py` lines 71-83). -/
def brute_num_tilings (cols : Nat) : Nat :=
  (brute_all_tilings cols).length

/-- `brute_partial_num_tilings(twos, cols)` (`tilings.py` lines 85-97):
filter the valid tilings further by the count-aware validator. -/
def brute_partial_num_tilings (twos : Int) (cols : Nat) : Nat :=
  ((brute_all_tilings cols).filter (fun x => is_valid x (some twos))).length

/-- `partial_num_tilings(twos, cols)` (`tilings.py` lines 99-119): base case
`int(comb(cols-1, twos))` when `twos ≤ 1` or `cols ≤ 1`, otherwise the
three-way recurrence.  `lru_cache` only memoizes this pure recursion. -/
def partial_num_tilings (twos cols : Int) : Int :=
  if twos ≤ 1 ∨ cols ≤ 1 then comb (cols - 1) twos
  else
    partial_num_tilings (twos - 1) (cols - 2) +
    partial_num_tilings twos (cols - 2) +
    partial_num_tilings (twos - 1) (cols - 3)
termination_by cols.toNat
decreasing_by
  · simp only [not_or, not_le] at *; omega
  · simp only [not_or, not_le] at *; omega
  · simp only [not_or, not_le] at *; omega

/-- `num_tilings(cols)` (`tilings.py` lines 121-132):
`sum(partial_num_tilings(twos, cols) for twos in range(cols//2 + 1))`.
Python `//` is floor division, i.e. `Int.fdiv`; `range` over a
non-positive stop is empty, matching `Int.toNat`. -/
def num_tilings (cols : Int) : Int :=
  ((List.range (cols.fdiv 2 + 1).toNat).map
    (fun (twos : Nat) => partial_num_tilings (twos : Int) cols)).sum

/-- Structural form of validity: a sequence is a concatenation of unit
blocks `[1]` and domino blocks `[2, 3]`.  Proof-layer definition used to
reason about `posCheck` by induction. -/
def structValid : List Int → Bool
  | [] => true
  | a :: rest =>
    if a = 1 then structValid rest
    else if a = 2 then
      match rest with
      | [] => false
      | b :: rest' => if b = 3 then structValid rest' else false
    else false

/-- The number of candidate sequences of length `n` that are structurally
valid and contain exactly `k` dominoes (proof-layer counter). -/
def validCount (k n : Nat) : Nat :=
  ((allLists n).filter (fun t => structValid t && (t.count 2 == k))).length

/-- Written from the claim's words (C5): the binomial coefficient `C(n, k)`
under the standard conventions `C(n, k) = 0` when `k > n`, `k < 0`, or
`n < 0`. -/
def specBinom (n k : Int) : Int :=
  if n < k ∨ k < 0 ∨ n < 0 then 0 else (n.toNat.choose k.toNat : Int)

/-- Written from the claim's words (C8), the validator contract: every
element of the sequence is one of 1, 2, 3; every 2 is immediately followed
by a 3; every 3 is immediately preceded by a 2; and when the optional
expected count is provided, the number of 2s equals it. -/
def specValid (t : List Int) (k : Option Int) : Prop :=
  (∀ x ∈ t, x = 1 ∨ x = 2 ∨ x = 3) ∧
  (∀ i, i < t.length → t.getD i 0 = 2 → i + 1 < t.length ∧ t.getD (i + 1) 0 = 3) ∧
  (∀ i, i < t.length → t.getD i 0 = 3 → 1 ≤ i ∧ t.getD (i - 1) 0 = 2) ∧
  (∀ m : Int, k = some m → (t.count 2 : Int) = m)

/-! ## Helper layer: the binomial closed form of the recurrence counter -/

/-- `comb` in terms of `Nat.choose` alone: the `k ≤ n` guard is redundant
because `Nat.choose` is already 0 above the diagonal. -/
theorem comb_eq (a k : Int) :
    comb a k = if 0 ≤ a ∧ 0 ≤ k then (a.toNat.choose k.toNat : Int) else 0 := by
  unfold comb
  by_cases h1 : 0 ≤ a ∧ 0 ≤ k
  · by_cases h2 : k ≤ a
    · rw [if_pos ⟨h1.2, h1.1, h2⟩, if_pos h1]
    · rw [if_neg (by omega), if_pos h1, Nat.choose_eq_zero_of_lt (by omega)]
      simp
  · rw [if_neg (by omega), if_neg h1]

/-- Pascal's rule for `comb`, valid for every integer `a` once `1 ≤ k`. -/
theorem comb_pascal (a k : Int) (hk : 1 ≤ k) :
    comb a k = comb (a - 1) k + comb (a - 1) (k - 1) := by
  rw [comb_eq, comb_eq, comb_eq]
  rcases lt_trichotomy a 0 with ha | ha | ha
  · rw [if_neg (by omega), if_neg (by omega), if_neg (by omega)]
    ring
  · subst ha
    rw [if_pos (by omega), if_neg (by omega), if_neg (by omega),
      Nat.choose_eq_zero_of_lt (by omega)]
    simp
  · rw [if_pos (by omega), if_pos (by omega), if_pos (by omega)]
    have hA : a.toNat = (a - 1).toNat + 1 := by omega
    have hK : k.toNat = (k - 1).toNat + 1 := by omega
    rw [hA, hK, Nat.choose_succ_succ]
    push_cast
    ring

/-- `comb` on a difference of naturals is `Nat.choose` on the truncated
difference. -/
theorem comb_natCast (m k : Nat) :
    comb ((m : Int) - (k : Int)) (k : Int) = ((m - k).choose k : Int) := by
  rw [comb_eq]
  by_cases h : k ≤ m
  · rw [if_pos (by omega)]
    have e1 : ((m : Int) - (k : Int)).toNat = m - k := by omega
    have e2 : ((k : Int)).toNat = k := by omega
    rw [e1, e2]
  · rw [if_neg (by omega)]
    have e1 : m - k = 0 := by omega
    rw [e1, Nat.choose_eq_zero_of_lt (by omega)]
    simp

/-- Closed form of the recurrence counter: away from the single point
`(0, 0)` the code computes `comb (cols - twos) twos`, i.e. the binomial
coefficient `C(cols − twos, twos)` with the zero conventions. -/
theorem partial_num_tilings_closed (twos cols : Int) (h : ¬(twos = 0 ∧ cols = 0)) :
    partial_num_tilings twos cols = comb (cols - twos) twos := by
  induction twos, cols using partial_num_tilings.induct with
  | case1 twos cols hbase =>
    unfold partial_num_tilings
    rw [if_pos hbase]
    rcases lt_trichotomy twos 0 with ht | ht | ht
    · rw [comb_eq, comb_eq, if_neg (by omega), if_neg (by omega)]
    · subst ht
      rw [comb_eq, comb_eq]
      rcases lt_or_le cols 1 with hc | hc
      · rw [if_neg (by omega), if_neg (by omega)]
      · rw [if_pos (by omega), if_pos (by omega)]
        simp [Nat.choose_zero_right]
    · rcases eq_or_lt_of_le ht with ht1 | ht2
      · rw [← ht1]
        norm_num
      · have hc : cols ≤ 1 := by rcases hbase with h | h <;> omega
        rw [comb_eq, comb_eq]
        rcases lt_or_le cols 1 with hcc | hcc
        · rw [if_neg (by omega), if_neg (by omega)]
        · have hc1 : cols = 1 := by omega
          subst hc1
          rw [if_pos (by omega), if_neg (by omega),
            Nat.choose_eq_zero_of_lt (by omega)]
          simp
  | case2 twos cols hrec ih1 ih2 ih3 =>
    have ht : 2 ≤ twos := by omega
    have hc : 2 ≤ cols := by omega
    unfold partial_num_tilings
    rw [if_neg hrec]
    rw [ih1 (by omega), ih2 (by omega), ih3 (by omega)]
    have e1 : cols - 2 - (twos - 1) = cols - twos - 1 := by ring
    have e2 : cols - 2 - twos = cols - twos - 2 := by ring
    have e3 : cols - 3 - (twos - 1) = cols - twos - 2 := by ring
    rw [e1, e2, e3, comb_pascal (cols - twos) twos (by omega),
      comb_pascal (cols - twos - 1) twos (by omega)]
    ring_nf

/-! ## Helper layer: structural characterisation of the validator -/

theorem structValid_cons_one (u : List Int) : structValid (1 :: u) = structValid u := by
  rw [structValid.eq_def]
  norm_num

theorem structValid_cons_two_three (u : List Int) :
    structValid (2 :: 3 :: u) = structValid u := by
  rw [structValid.eq_def]
  norm_num

theorem structValid_cons_three (u : List Int) : structValid (3 :: u) = false := by
  rw [structValid.eq_def]
  norm_num

theorem structValid_cons_two_bad (b : Int) (u : List Int) (hb : b ≠ 3) :
    structValid (2 :: b :: u) = false := by
  rw [structValid.eq_def]
  simp [hb]

theorem structValid_cons_other (a : Int) (u : List Int) (h1 : a ≠ 1) (h2 : a ≠ 2) :
    structValid (a :: u) = false := by
  rw [structValid.eq_def]
  simp [h1, h2]

theorem tileOk_eq (t : List Int) (i : Nat) :
    tileOk t i =
      if t.getD i 0 = 1 then true
      else if t.getD i 0 = 2 then
        decide (i < t.length - 1) && decide (t.getD (i + 1) 0 = 3)
      else if t.getD i 0 = 3 then
        decide (0 < i) && decide (t.getD (i - 1) 0 = 2)
      else false := rfl

/-- Propositional form of the single-position check. -/
theorem tileOk_iff (t : List Int) (i : Nat) :
    tileOk t i = true ↔
      t.getD i 0 = 1 ∨
      (t.getD i 0 = 2 ∧ i < t.length - 1 ∧ t.getD (i + 1) 0 = 3) ∨
      (t.getD i 0 = 3 ∧ 0 < i ∧ t.getD (i - 1) 0 = 2) := by
  rw [tileOk_eq]
  split_ifs with h1 h2 h3
  · exact iff_of_true rfl (Or.inl h1)
  · simp only [Bool.and_eq_true, decide_eq_true_eq]
    constructor
    · intro ⟨hb, hc⟩
      exact Or.inr (Or.inl ⟨h2, hb, hc⟩)
    · rintro (h | ⟨_, hb, hc⟩ | ⟨h, _, _⟩)
      · omega
      · exact ⟨hb, hc⟩
      · omega
  · simp only [Bool.and_eq_true, decide_eq_true_eq]
    constructor
    · intro ⟨hb, hc⟩
      exact Or.inr (Or.inr ⟨h3, hb, hc⟩)
    · rintro (h | ⟨h, _, _⟩ | ⟨_, hb, hc⟩)
      · omega
      · omega
      · exact ⟨hb, hc⟩
  · constructor
    · intro h
      exact absurd h (by simp)
    · rintro (h | ⟨h, _, _⟩ | ⟨h, _, _⟩)
      · omega
      · omega
      · omega

/-- Propositional form of the whole positional scan. -/
theorem posCheck_iff (t : List Int) :
    posCheck t = true ↔ ∀ i < t.length, tileOk t i = true := by
  simp [posCheck, List.all_eq_true, List.mem_range]

theorem posCheck_cons_one (t : List Int) : posCheck (1 :: t) = posCheck t := by
  rw [Bool.eq_iff_iff, posCheck_iff, posCheck_iff]
  constructor
  · intro h i hi
    have h' := h (i + 1) (by simp; omega)
    rw [tileOk_iff] at h' ⊢
    simp only [List.getD_cons_succ, List.length_cons, Nat.add_sub_cancel] at h'
    rcases h' with h' | ⟨ha, hb, hc⟩ | ⟨ha, _, hc⟩
    · exact Or.inl h'
    · exact Or.inr (Or.inl ⟨ha, by omega, hc⟩)
    · cases i with
      | zero => rw [List.getD_cons_zero] at hc; omega
      | succ j =>
        rw [List.getD_cons_succ] at hc
        exact Or.inr (Or.inr ⟨ha, Nat.succ_pos j, hc⟩)
  · intro h i hi
    rw [tileOk_iff]
    cases i with
    | zero => simp
    | succ j =>
      have hj : j < t.length := by simp at hi; omega
      have h' := h j hj
      rw [tileOk_iff] at h'
      simp only [List.getD_cons_succ, List.length_cons, Nat.add_sub_cancel]
      rcases h' with h' | ⟨ha, hb, hc⟩ | ⟨ha, hb, hc⟩
      · exact Or.inl h'
      · exact Or.inr (Or.inl ⟨ha, by omega, hc⟩)
      · refine Or.inr (Or.inr ⟨ha, Nat.succ_pos j, ?_⟩)
        cases j with
        | zero => omega
        | succ m =>
          rw [List.getD_cons_succ]
          exact hc

theorem posCheck_cons_two_three (t : List Int) :
    posCheck (2 :: 3 :: t) = posCheck t := by
  rw [Bool.eq_iff_iff, posCheck_iff, posCheck_iff]
  constructor
  · intro h i hi
    have h' := h (i + 2) (by simp; omega)
    rw [tileOk_iff] at h' ⊢
    have e1 : i + 2 + 1 = (i + 1) + 2 := by omega
    have e2 : i + 2 - 1 = i + 1 := by omega
    rw [e1, e2] at h'
    simp only [List.getD_cons_succ, List.length_cons] at h'
    rcases h' with h' | ⟨ha, hb, hc⟩ | ⟨ha, _, hc⟩
    · exact Or.inl h'
    · exact Or.inr (Or.inl ⟨ha, by omega, hc⟩)
    · cases i with
      | zero =>
        rw [List.getD_cons_zero] at hc
        omega
      | succ j =>
        rw [List.getD_cons_succ] at hc
        refine Or.inr (Or.inr ⟨ha, Nat.succ_pos j, ?_⟩)
        rw [Nat.add_sub_cancel]
        exact hc
  · intro h i hi
    rw [tileOk_iff]
    match i with
    | 0 =>
      refine Or.inr (Or.inl ⟨by simp, by simp, by simp⟩)
    | 1 =>
      exact Or.inr (Or.inr ⟨by simp, Nat.one_pos, by simp⟩)
    | (j + 2) =>
      have hj : j < t.length := by simp at hi; omega
      have h' := h j hj
      rw [tileOk_iff] at h'
      have e1 : j + 2 + 1 = (j + 1) + 2 := by omega
      have e2 : j + 2 - 1 = j + 1 := by omega
      rw [e1, e2]
      simp only [List.getD_cons_succ, List.length_cons]
      rcases h' with h' | ⟨ha, hb, hc⟩ | ⟨ha, hb, hc⟩
      · exact Or.inl h'
      · exact Or.inr (Or.inl ⟨ha, by omega, hc⟩)
      · refine Or.inr (Or.inr ⟨ha, by omega, ?_⟩)
        cases j with
        | zero => omega
        | succ m =>
          rw [List.getD_cons_succ]
          rw [Nat.add_sub_cancel] at hc
          exact hc

theorem posCheck_cons_three (t : List Int) : posCheck (3 :: t) = false := by
  rw [Bool.eq_false_iff]
  intro h
  have h0 := (posCheck_iff _).mp h 0 (by simp)
  rw [tileOk_iff] at h0
  simp at h0

theorem posCheck_cons_two_bad (b : Int) (t : List Int) (hb : b ≠ 3) :
    posCheck (2 :: b :: t) = false := by
  rw [Bool.eq_false_iff]
  intro h
  have h0 := (posCheck_iff _).mp h 0 (by simp)
  rw [tileOk_iff] at h0
  simp [hb] at h0

theorem posCheck_cons_other (a : Int) (t : List Int)
    (h1 : a ≠ 1) (h2 : a ≠ 2) (h3 : a ≠ 3) : posCheck (a :: t) = false := by
  rw [Bool.eq_false_iff]
  intro h
  have h0 := (posCheck_iff _).mp h 0 (by simp)
  rw [tileOk_iff] at h0
  simp [h1, h2, h3] at h0

/-- The positional scan of `is_valid` computes exactly structural validity. -/
theorem posCheck_eq_structValid (t : List Int) : posCheck t = structValid t := by
  suffices H : ∀ (n : Nat) (u : List Int), u.length ≤ n → posCheck u = structValid u from
    H t.length t le_rfl
  intro n
  induction n with
  | zero =>
    intro u hu
    have : u = [] := List.eq_nil_of_length_eq_zero (by omega)
    subst this
    rfl
  | succ n ih =>
    intro u hu
    rcases u with _ | ⟨a, rest⟩
    · rfl
    · by_cases h1 : a = 1
      · subst h1
        rw [posCheck_cons_one, structValid_cons_one]
        exact ih rest (by simp at hu; omega)
      · by_cases h2 : a = 2
        · subst h2
          rcases rest with _ | ⟨b, rest'⟩
          · decide
          · by_cases h3 : b = 3
            · subst h3
              rw [posCheck_cons_two_three, structValid_cons_two_three]
              exact ih rest' (by simp at hu; omega)
            · rw [posCheck_cons_two_bad b rest' h3, structValid_cons_two_bad b rest' h3]
        · by_cases h3 : a = 3
          · subst h3
            rw [posCheck_cons_three, structValid_cons_three]
          · rw [posCheck_cons_other a rest h1 h2 h3, structValid_cons_other a rest h1 h2]

/-! ## Helper layer: counting the brute enumerator's valid tilings -/

theorem allLists_succ (n : Nat) :
    allLists (n + 1) = ([1, 2, 3] : List Int).flatMap (fun a => (allLists n).map (a :: ·)) :=
  rfl

theorem filter_length_allLists_succ (p : List Int → Bool) (n : Nat) :
    ((allLists (n + 1)).filter p).length =
      ((allLists n).filter (fun u => p (1 :: u))).length +
      ((allLists n).filter (fun u => p (2 :: u))).length +
      ((allLists n).filter (fun u => p (3 :: u))).length := by
  rw [allLists_succ, List.flatMap_cons, List.flatMap_cons, List.flatMap_cons,
    List.flatMap_nil, List.append_nil, List.filter_append, List.filter_append,
    List.length_append, List.length_append, List.filter_map, List.filter_map,
    List.filter_map, List.length_map, List.length_map, List.length_map]
  show (List.filter (fun u => p (1 :: u)) (allLists n)).length +
      ((List.filter (fun u => p (2 :: u)) (allLists n)).length +
        (List.filter (fun u => p (3 :: u)) (allLists n)).length) = _
  omega

theorem count_two_cons_one (u : List Int) : ((1 : Int) :: u).count 2 = u.count 2 := by
  rw [List.count_cons]
  norm_num

theorem count_two_cons_two_three (u : List Int) :
    ((2 : Int) :: 3 :: u).count 2 = u.count 2 + 1 := by
  rw [List.count_cons, List.count_cons]
  norm_num

theorem nat_succ_beq_succ (a b : Nat) : (a + 1 == b + 1) = (a == b) := by
  rw [Bool.eq_iff_iff]
  simp only [beq_iff_eq]
  omega

theorem validCount_zero_zero : validCount 0 0 = 1 := by decide

theorem validCount_succ_zero (k : Nat) : validCount (k + 1) 0 = 0 := rfl

theorem validCount_zero_one : validCount 0 1 = 1 := by decide

theorem validCount_succ_one (k : Nat) : validCount (k + 1) 1 = 0 := rfl

theorem validCount_step_succ (k n : Nat) :
    validCount (k + 1) (n + 2) = validCount (k + 1) (n + 1) + validCount k n := by
  unfold validCount
  rw [filter_length_allLists_succ]
  have h1 : ((allLists (n + 1)).filter
      (fun u => structValid (1 :: u) && ((1 :: u).count 2 == k + 1))).length =
      ((allLists (n + 1)).filter
        (fun t => structValid t && (t.count 2 == k + 1))).length := by
    congr 1
    apply List.filter_congr
    intro u _
    rw [structValid_cons_one, count_two_cons_one]
  have h3 : ((allLists (n + 1)).filter
      (fun u => structValid (3 :: u) && ((3 :: u).count 2 == k + 1))).length = 0 := by
    have e : (fun u : List Int => structValid (3 :: u) && ((3 :: u).count 2 == k + 1)) =
        fun _ => false := by
      funext u
      rw [structValid_cons_three, Bool.false_and]
    rw [e, List.filter_false, List.length_nil]
  have h2 : ((allLists (n + 1)).filter
      (fun u => structValid (2 :: u) && ((2 :: u).count 2 == k + 1))).length =
      ((allLists n).filter (fun t => structValid t && (t.count 2 == k))).length := by
    rw [filter_length_allLists_succ]
    have h21 : ((allLists n).filter
        (fun u => structValid (2 :: 1 :: u) && ((2 :: 1 :: u).count 2 == k + 1))).length = 0 := by
      have e : (fun u : List Int =>
          structValid (2 :: 1 :: u) && ((2 :: 1 :: u).count 2 == k + 1)) = fun _ => false := by
        funext u
        rw [structValid_cons_two_bad 1 u (by norm_num), Bool.false_and]
      rw [e, List.filter_false, List.length_nil]
    have h22 : ((allLists n).filter
        (fun u => structValid (2 :: 2 :: u) && ((2 :: 2 :: u).count 2 == k + 1))).length = 0 := by
      have e : (fun u : List Int =>
          structValid (2 :: 2 :: u) && ((2 :: 2 :: u).count 2 == k + 1)) = fun _ => false := by
        funext u
        rw [structValid_cons_two_bad 2 u (by norm_num), Bool.false_and]
      rw [e, List.filter_false, List.length_nil]
    have h23 : ((allLists n).filter
        (fun u => structValid (2 :: 3 :: u) && ((2 :: 3 :: u).count 2 == k + 1))).length =
        ((allLists n).filter (fun t => structValid t && (t.count 2 == k))).length := by
      congr 1
      apply List.filter_congr
      intro u _
      rw [structValid_cons_two_three, count_two_cons_two_three, nat_succ_beq_succ]
    rw [h21, h22, h23]
    omega
  rw [h1, h2, h3]
  omega

theorem validCount_step_zero (n : Nat) : validCount 0 (n + 2) = validCount 0 (n + 1) := by
  unfold validCount
  rw [filter_length_allLists_succ]
  have h1 : ((allLists (n + 1)).filter
      (fun u => structValid (1 :: u) && ((1 :: u).count 2 == 0))).length =
      ((allLists (n + 1)).filter
        (fun t => structValid t && (t.count 2 == 0))).length := by
    congr 1
    apply List.filter_congr
    intro u _
    rw [structValid_cons_one, count_two_cons_one]
  have h3 : ((allLists (n + 1)).filter
      (fun u => structValid (3 :: u) && ((3 :: u).count 2 == 0))).length = 0 := by
    have e : (fun u : List Int => structValid (3 :: u) && ((3 :: u).count 2 == 0)) =
        fun _ => false := by
      funext u
      rw [structValid_cons_three, Bool.false_and]
    rw [e, List.filter_false, List.length_nil]
  have h2 : ((allLists (n + 1)).filter
      (fun u => structValid (2 :: u) && ((2 :: u).count 2 == 0))).length = 0 := by
    rw [filter_length_allLists_succ]
    have h21 : ((allLists n).filter
        (fun u => structValid (2 :: 1 :: u) && ((2 :: 1 :: u).count 2 == 0))).length = 0 := by
      have e : (fun u : List Int =>
          structValid (2 :: 1 :: u) && ((2 :: 1 :: u).count 2 == 0)) = fun _ => false := by
        funext u
        rw [structValid_cons_two_bad 1 u (by norm_num), Bool.false_and]
      rw [e, List.filter_false, List.length_nil]
    have h22 : ((allLists n).filter
        (fun u => structValid (2 :: 2 :: u) && ((2 :: 2 :: u).count 2 == 0))).length = 0 := by
      have e : (fun u : List Int =>
          structValid (2 :: 2 :: u) && ((2 :: 2 :: u).count 2 == 0)) = fun _ => false := by
        funext u
        rw [structValid_cons_two_bad 2 u (by norm_num), Bool.false_and]
      rw [e, List.filter_false, List.length_nil]
    have h23 : ((allLists n).filter
        (fun u => structValid (2 :: 3 :: u) && ((2 :: 3 :: u).count 2 == 0))).length = 0 := by
      have e : (fun u : List Int =>
          structValid (2 :: 3 :: u) && ((2 :: 3 :: u).count 2 == 0)) = fun _ => false := by
        funext u
        rw [structValid_cons_two_three, count_two_cons_two_three]
        rw [show (u.count 2 + 1 == 0) = false from rfl, Bool.and_false]
      rw [e, List.filter_false, List.length_nil]
    rw [h21, h22, h23]
  rw [h1, h2, h3]
  omega

/-- Closed form for the brute-force per-domino-count totals: the number of
valid sequences of length `n` with exactly `k` dominoes is `C(n − k, k)`. -/
theorem validCount_eq (n k : Nat) : validCount k n = (n - k).choose k := by
  induction n using Nat.strong_induction_on generalizing k with
  | _ n ih =>
    rcases n with _ | n
    · rcases k with _ | k
      · rw [validCount_zero_zero, Nat.zero_sub, Nat.choose_self]
      · rw [validCount_succ_zero, Nat.choose_eq_zero_of_lt (by omega)]
    · rcases n with _ | n
      · rcases k with _ | k
        · rw [validCount_zero_one, Nat.choose_zero_right]
        · rw [validCount_succ_one, Nat.choose_eq_zero_of_lt (by omega)]
      · rcases k with _ | k
        · rw [validCount_step_zero, ih (n + 1) (by omega) 0]
          simp [Nat.choose_zero_right]
        · rw [validCount_step_succ, ih (n + 1) (by omega) (k + 1), ih n (by omega) k]
          rcases le_or_lt k n with h | h
          · have e1 : n + 2 - (k + 1) = (n - k) + 1 := by omega
            have e2 : n + 1 - (k + 1) = n - k := by omega
            rw [e1, e2, Nat.choose_succ_succ, Nat.add_comm]
          · rw [Nat.choose_eq_zero_of_lt (by omega), Nat.choose_eq_zero_of_lt (by omega),
              Nat.choose_eq_zero_of_lt (by omega)]

theorem mem_allLists_length : ∀ (n : Nat) (t : List Int), t ∈ allLists n → t.length = n := by
  intro n
  induction n with
  | zero =>
    intro t ht
    rw [show allLists 0 = [[]] from rfl] at ht
    simp at ht
    subst ht
    rfl
  | succ n ih =>
    intro t ht
    rw [allLists_succ] at ht
    simp only [List.mem_flatMap, List.mem_map] at ht
    obtain ⟨a, _, u, hu, rfl⟩ := ht
    simp [ih u hu]

theorem count_three_cons_one (u : List Int) : ((1 : Int) :: u).count 3 = u.count 3 := by
  rw [List.count_cons]
  norm_num

theorem count_three_cons_two_three (u : List Int) :
    ((2 : Int) :: 3 :: u).count 3 = u.count 3 + 1 := by
  rw [List.count_cons, List.count_cons]
  norm_num

/-- A structurally valid sequence holds at most `length / 2` dominoes. -/
theorem structValid_two_le (t : List Int) (h : structValid t = true) :
    2 * t.count 2 ≤ t.length := by
  suffices H : ∀ (n : Nat) (u : List Int), u.length ≤ n → structValid u = true →
      2 * u.count 2 ≤ u.length from H t.length t le_rfl h
  intro n
  induction n with
  | zero =>
    intro u hu _
    have : u = [] := List.eq_nil_of_length_eq_zero (by omega)
    subst this
    simp
  | succ n ih =>
    intro u hu hv
    rcases u with _ | ⟨a, rest⟩
    · simp
    · by_cases h1 : a = 1
      · subst h1
        rw [structValid_cons_one] at hv
        have := ih rest (by simp at hu; omega) hv
        rw [count_two_cons_one]
        simp only [List.length_cons]
        omega
      · by_cases h2 : a = 2
        · subst h2
          rcases rest with _ | ⟨b, rest'⟩
          · exact absurd hv (by decide)
          · by_cases h3 : b = 3
            · subst h3
              rw [structValid_cons_two_three] at hv
              have := ih rest' (by simp at hu; omega) hv
              rw [count_two_cons_two_three]
              simp only [List.length_cons]
              omega
            · rw [structValid_cons_two_bad b rest' h3] at hv
              exact absurd hv (by simp)
        · by_cases h3 : a = 3
          · subst h3
            rw [structValid_cons_three] at hv
            exact absurd hv (by simp)
          · rw [structValid_cons_other a rest h1 h2] at hv
            exact absurd hv (by simp)

/-- A structurally valid sequence has as many heads as tails. -/
theorem structValid_count_two_eq_three (t : List Int) (h : structValid t = true) :
    t.count 2 = t.count 3 := by
  suffices H : ∀ (n : Nat) (u : List Int), u.length ≤ n → structValid u = true →
      u.count 2 = u.count 3 from H t.length t le_rfl h
  intro n
  induction n with
  | zero =>
    intro u hu _
    have : u = [] := List.eq_nil_of_length_eq_zero (by omega)
    subst this
    rfl
  | succ n ih =>
    intro u hu hv
    rcases u with _ | ⟨a, rest⟩
    · rfl
    · by_cases h1 : a = 1
      · subst h1
        rw [structValid_cons_one] at hv
        rw [count_two_cons_one, count_three_cons_one]
        exact ih rest (by simp at hu; omega) hv
      · by_cases h2 : a = 2
        · subst h2
          rcases rest with _ | ⟨b, rest'⟩
          · exact absurd hv (by decide)
          · by_cases h3 : b = 3
            · subst h3
              rw [structValid_cons_two_three] at hv
              rw [count_two_cons_two_three, count_three_cons_two_three,
                ih rest' (by simp at hu; omega) hv]
            · rw [structValid_cons_two_bad b rest' h3] at hv
              exact absurd hv (by simp)
        · by_cases h3 : a = 3
          · subst h3
            rw [structValid_cons_three] at hv
            exact absurd hv (by simp)
          · rw [structValid_cons_other a rest h1 h2] at hv
            exact absurd hv (by simp)

theorem list_sum_range_map {M : Type} [AddCommMonoid M] (f : Nat → M) (m : Nat) :
    ((List.range m).map f).sum = ∑ j ∈ Finset.range m, f j := by
  induction m with
  | zero => simp
  | succ m ih =>
    rw [List.range_succ, List.map_append, List.sum_append, Finset.sum_range_succ, ih]
    simp

/-- Splitting a filtered count by the number of dominoes, when that number
is bounded on the filtered elements. -/
theorem length_filter_count_partition (L : List (List Int)) (p : List Int → Bool) (m : Nat)
    (hb : ∀ t ∈ L, p t = true → t.count 2 < m) :
    (L.filter p).length =
      ∑ j ∈ Finset.range m, (L.filter (fun t => p t && (t.count 2 == j))).length := by
  induction L with
  | nil => simp
  | cons t L ih =>
    have hbL : ∀ u ∈ L, p u = true → u.count 2 < m :=
      fun u hu => hb u (List.mem_cons_of_mem t hu)
    by_cases hp : p t = true
    · rw [List.filter_cons_of_pos hp]
      have hs : ∀ j, ((t :: L).filter (fun u => p u && (u.count 2 == j))).length =
          (L.filter (fun u => p u && (u.count 2 == j))).length +
            (if t.count 2 = j then 1 else 0) := by
        intro j
        rw [List.filter_cons]
        by_cases hj : t.count 2 = j
        · have hcond : (p t && (t.count 2 == j)) = true := by
            rw [hp, hj]
            simp
          rw [if_pos hcond, List.length_cons, if_pos hj]
        · have hcond : (p t && (t.count 2 == j)) = false := by
            rw [hp]
            simp [hj]
          rw [hcond, if_neg (by simp), if_neg hj]
          omega
      rw [Finset.sum_congr rfl (fun j _ => hs j), Finset.sum_add_distrib, ← ih hbL,
        Finset.sum_ite_eq (Finset.range m) (t.count 2) (fun _ => 1),
        if_pos (Finset.mem_range.mpr (hb t (List.mem_cons_self t L) hp)), List.length_cons]
    · have hp' : p t = false := by
        revert hp
        cases p t <;> simp
      rw [List.filter_cons_of_neg (by simp [hp'])]
      have hs : ∀ j, ((t :: L).filter (fun u => p u && (u.count 2 == j))) =
          (L.filter (fun u => p u && (u.count 2 == j))) := by
        intro j
        rw [List.filter_cons]
        have hcond : (p t && (t.count 2 == j)) = false := by
          rw [hp']
          simp
        rw [hcond, if_neg (by simp)]
      rw [Finset.sum_congr rfl (fun j _ => by rw [hs j]), ih hbL]

/-! ## Helper layer: the brute enumerator agrees with the recurrence for N ≥ 1 -/

theorem is_valid_none_eq (t : List Int) : is_valid t none = structValid t := by
  rw [show is_valid t none = posCheck t from rfl, posCheck_eq_structValid]

theorem brute_all_tilings_eq (n : Nat) :
    brute_all_tilings n = (allLists n).filter structValid := by
  unfold brute_all_tilings
  apply List.filter_congr
  intro t _
  exact is_valid_none_eq t

theorem brute_partial_eq_validCount (k n : Nat) :
    brute_partial_num_tilings (k : Int) n = validCount k n := by
  unfold brute_partial_num_tilings validCount
  rw [brute_all_tilings_eq, List.filter_filter]
  congr 1
  apply List.filter_congr
  intro t _
  show ((if (t.count 2 : Int) ≠ (k : Int) then false else posCheck t) && structValid t) =
    (structValid t && (t.count 2 == k))
  by_cases hc : t.count 2 = k
  · rw [if_neg (by simp [hc]), posCheck_eq_structValid,
      show (t.count 2 == k) = true from by simp [hc], Bool.and_true, Bool.and_self]
  · rw [if_pos (by exact_mod_cast hc), Bool.false_and,
      show (t.count 2 == k) = false from by simp [hc], Bool.and_false]

/-- Closed form for the brute-force per-domino-count totals. -/
theorem brute_partial_num_tilings_choose (k n : Nat) :
    brute_partial_num_tilings (k : Int) n = (n - k).choose k := by
  rw [brute_partial_eq_validCount, validCount_eq]

theorem brute_num_tilings_eq_sum (n : Nat) :
    brute_num_tilings n = ∑ j ∈ Finset.range (n / 2 + 1), validCount j n := by
  unfold brute_num_tilings
  rw [brute_all_tilings_eq]
  rw [length_filter_count_partition (allLists n) structValid (n / 2 + 1) ?hb]
  · rfl
  case hb =>
    intro t ht hv
    have hl := mem_allLists_length n t ht
    have h2 := structValid_two_le t hv
    omega

theorem num_tilings_natCast_eq (m : Nat) (hm : 1 ≤ m) :
    num_tilings (m : Int) = ∑ j ∈ Finset.range (m / 2 + 1), ((m - j).choose j : Int) := by
  unfold num_tilings
  have harg : (((m : Int).fdiv 2 + 1)).toNat = m / 2 + 1 := by
    rw [Int.fdiv_eq_ediv _ (by norm_num)]
    omega
  rw [harg, list_sum_range_map]
  apply Finset.sum_congr rfl
  intro j hj
  rw [partial_num_tilings_closed _ _ (by intro hcon; omega)]
  exact comb_natCast m j

/-- For every positive length the aggregator agrees with the brute-force
total (the N = 0 column is the one exception, see the claim analyses). -/
theorem brute_eq_num_tilings (m : Nat) (hm : 1 ≤ m) :
    (brute_num_tilings m : Int) = num_tilings (m : Int) := by
  rw [num_tilings_natCast_eq m hm, brute_num_tilings_eq_sum, Nat.cast_sum]
  apply Finset.sum_congr rfl
  intro j _
  rw [validCount_eq]

/-- For every positive length the recurrence counter agrees with the
brute-force per-domino-count totals, for every domino count. -/
theorem brute_eq_partial_num_tilings (k m : Nat) (hm : 1 ≤ m) :
    (brute_partial_num_tilings (k : Int) m : Int) = partial_num_tilings (k : Int) (m : Int) := by
  rw [brute_partial_num_tilings_choose, partial_num_tilings_closed _ _ (by intro hcon; omega)]
  exact (comb_natCast m k).symm

/-! ## Helper layer: spec-side comparisons and concrete evaluations -/

theorem comb_eq_specBinom (a k : Int) : comb a k = specBinom a k := by
  rw [comb_eq]
  unfold specBinom
  by_cases h : 0 ≤ a ∧ 0 ≤ k
  · by_cases h2 : a < k
    · rw [if_pos h, if_pos (Or.inl h2), Nat.choose_eq_zero_of_lt (by omega)]
      simp
    · rw [if_pos h, if_neg (by omega)]
  · rw [if_neg h, if_pos (by omega)]

/-- The positional scan, stated the way the specification words it. -/
theorem posCheck_iff_spec (t : List Int) :
    posCheck t = true ↔
      ((∀ x ∈ t, x = 1 ∨ x = 2 ∨ x = 3) ∧
       (∀ i, i < t.length → t.getD i 0 = 2 → i + 1 < t.length ∧ t.getD (i + 1) 0 = 3) ∧
       (∀ i, i < t.length → t.getD i 0 = 3 → 1 ≤ i ∧ t.getD (i - 1) 0 = 2)) := by
  rw [posCheck_iff]
  constructor
  · intro h
    refine ⟨?_, ?_, ?_⟩
    · intro x hx
      obtain ⟨i, hi, rfl⟩ := List.mem_iff_getElem.mp hx
      have hO := h i hi
      rw [tileOk_iff, List.getD_eq_getElem t 0 hi] at hO
      rcases hO with h' | ⟨h', _⟩ | ⟨h', _⟩
      · exact Or.inl h'
      · exact Or.inr (Or.inl h')
      · exact Or.inr (Or.inr h')
    · intro i hi h2
      have hO := h i hi
      rw [tileOk_iff] at hO
      rcases hO with h' | ⟨_, hb, hc⟩ | ⟨h', _, _⟩
      · omega
      · exact ⟨by omega, hc⟩
      · omega
    · intro i hi h3
      have hO := h i hi
      rw [tileOk_iff] at hO
      rcases hO with h' | ⟨h', _, _⟩ | ⟨_, hb, hc⟩
      · omega
      · omega
      · exact ⟨by omega, hc⟩
  · rintro ⟨hmem, h2, h3⟩ i hi
    rw [tileOk_iff]
    have hx : t.getD i 0 ∈ t := by
      rw [List.getD_eq_getElem t 0 hi]
      exact List.getElem_mem hi
    rcases hmem _ hx with h1 | h1 | h1
    · exact Or.inl h1
    · obtain ⟨hb, hc⟩ := h2 i hi h1
      exact Or.inr (Or.inl ⟨h1, by omega, hc⟩)
    · obtain ⟨hb, hc⟩ := h3 i hi h1
      exact Or.inr (Or.inr ⟨h1, by omega, hc⟩)

theorem partial_zero_zero : partial_num_tilings 0 0 = 0 := by
  unfold partial_num_tilings
  decide

theorem partial_zero_one : partial_num_tilings 0 1 = 1 := by
  unfold partial_num_tilings
  decide

theorem num_tilings_zero : num_tilings 0 = 0 := by
  unfold num_tilings
  rw [show (((0 : Int).fdiv 2 + 1)).toNat = 1 from by decide,
    show List.range 1 = [0] from rfl]
  simp only [List.map_cons, List.map_nil, List.sum_cons, List.sum_nil,
    Nat.cast_zero, add_zero]
  exact partial_zero_zero

theorem num_tilings_one : num_tilings 1 = 1 := by
  unfold num_tilings
  rw [show (((1 : Int).fdiv 2 + 1)).toNat = 1 from by decide,
    show List.range 1 = [0] from rfl]
  simp only [List.map_cons, List.map_nil, List.sum_cons, List.sum_nil,
    Nat.cast_zero, add_zero]
  exact partial_zero_one

theorem num_tilings_value (m : Nat) (hm : 1 ≤ m) (v : Nat)
    (hv : (∑ j ∈ Finset.range (m / 2 + 1), (m - j).choose j) = v) :
    num_tilings (m : Int) = (v : Int) := by
  rw [num_tilings_natCast_eq m hm, ← hv]
  exact (Nat.cast_sum _ _).symm

/-! ## The claims -/

/-- C1: the equivalence `partial_num_tilings(K, N) = brute_partial_num_tilings(K, N)`
claimed for all 0 ≤ N ≤ 16, 0 ≤ K ≤ ⌊N/2⌋ fails exactly at K = 0, N = 0: the
recurrence returns `int(comb(-1, 0)) = 0` while the enumerator counts the empty
tiling once; for every N ≥ 1 (in particular 1 ≤ N ≤ 16) and every K the two
agree. -/
theorem claim1_partial_equivalence :
    partial_num_tilings 0 0 = 0 ∧ brute_partial_num_tilings 0 0 = 1 ∧
    ∀ (k m : Nat), 1 ≤ m →
      (brute_partial_num_tilings (k : Int) m : Int) =
        partial_num_tilings (k : Int) (m : Int) :=
  ⟨partial_zero_zero, by decide, fun k m hm => brute_eq_partial_num_tilings k m hm⟩

/-- C2: the total equivalence `num_tilings(N) = brute_num_tilings(N)` claimed for
all 0 ≤ N ≤ 16 fails exactly at N = 0 (the code totals 0, the enumerator counts
the empty tiling once) and holds for every N ≥ 1. -/
theorem claim2_total_equivalence :
    num_tilings 0 = 0 ∧ brute_num_tilings 0 = 1 ∧
    ∀ m : Nat, 1 ≤ m → (brute_num_tilings m : Int) = num_tilings (m : Int) :=
  ⟨num_tilings_zero, by decide, fun m hm => brute_eq_num_tilings m hm⟩

/-- C3: of the claimed boundary values, `num_tilings(1) = 1` holds and
`partial_num_tilings(0, N) = 1` holds for every N ≥ 1, but at N = 0 the code
returns 0 for both `num_tilings(0)` and `partial_num_tilings(0, 0)` (the claim
says 1, and the enumerator agrees with the claim). -/
theorem claim3_boundary_values :
    num_tilings 0 = 0 ∧ num_tilings 1 = 1 ∧ partial_num_tilings 0 0 = 0 ∧
    ∀ n : Int, 1 ≤ n → partial_num_tilings 0 n = 1 := by
  refine ⟨num_tilings_zero, num_tilings_one, partial_zero_zero, ?_⟩
  intro n hn
  rw [partial_num_tilings_closed 0 n (by intro hcon; omega), sub_zero, comb_eq,
    if_pos (by omega), show (0 : Int).toNat = 0 from rfl, Nat.choose_zero_right,
    Nat.cast_one]

/-- C4: in the recursive region `dominoCount > 1` and `length > 1` the counter
returns exactly the sum of the three sub-counts. -/
theorem claim4_recurrence (twos cols : Int) (ht : 1 < twos) (hc : 1 < cols) :
    partial_num_tilings twos cols =
      partial_num_tilings (twos - 1) (cols - 2) + partial_num_tilings twos (cols - 2) +
      partial_num_tilings (twos - 1) (cols - 3) := by
  conv_lhs => rw [partial_num_tilings]
  rw [if_neg (by omega)]

theorem claim4_recurrence_witness :
    (1 : Int) < 2 ∧ (1 : Int) < 4 ∧
    partial_num_tilings 2 4 =
      partial_num_tilings 1 2 + partial_num_tilings 2 2 + partial_num_tilings 1 1 :=
  ⟨by norm_num, by norm_num, claim4_recurrence 2 4 (by norm_num) (by norm_num)⟩

/-- C5: in the base region `dominoCount ≤ 1` or `length ≤ 1` the counter equals
the binomial coefficient `C(length − 1, dominoCount)` under the standard zero
conventions. -/
theorem claim5_base_case (twos cols : Int) (h : twos ≤ 1 ∨ cols ≤ 1) :
    partial_num_tilings twos cols = specBinom (cols - 1) twos := by
  unfold partial_num_tilings
  rw [if_pos h, comb_eq_specBinom]

theorem claim5_base_case_witness :
    ((1 : Int) ≤ 1 ∨ (5 : Int) ≤ 1) ∧ partial_num_tilings 1 5 = specBinom 4 1 :=
  ⟨Or.inl le_rfl, claim5_base_case 1 5 (Or.inl le_rfl)⟩

/-- C6: for K < 0, N < 0 or K > N the recurrence counter returns 0 (it is a
total function over all integers). -/
theorem claim6_negative_domain (twos cols : Int)
    (h : twos < 0 ∨ cols < 0 ∨ cols < twos) : partial_num_tilings twos cols = 0 := by
  have hne : ¬(twos = 0 ∧ cols = 0) := by
    rintro ⟨rfl, rfl⟩
    rcases h with h | h | h <;> omega
  rw [partial_num_tilings_closed twos cols hne, comb_eq]
  rcases h with h | h | h
  · rw [if_neg (by omega)]
  · rw [if_neg (by omega)]
  · rw [if_neg (by omega)]

theorem claim6_negative_domain_witness :
    ((5 : Int) < 0 ∨ (2 : Int) < 0 ∨ (2 : Int) < 5) ∧ partial_num_tilings 5 2 = 0 :=
  ⟨by norm_num, claim6_negative_domain 5 2 (by norm_num)⟩

/-- C7 (counterexample): the claimed seed value `num_tilings(14) = 1220` is
false — the code computes 610. -/
theorem claim7_counterexample : num_tilings 14 ≠ 1220 := by
  have h := num_tilings_value 14 (by norm_num) 610 (by decide)
  rw [show ((14 : Nat) : Int) = (14 : Int) from by norm_num,
    show ((610 : Nat) : Int) = (610 : Int) from by norm_num] at h
  rw [h]
  norm_num

/-- C7 (amended): the seed values the code actually produces:
`num_tilings(2) = 2`, `num_tilings(3) = 3`, `num_tilings(4) = 5` hold as
claimed, and `num_tilings(14) = 610` (not 1220; 610 is still more than 500). -/
theorem claim7_known_values :
    num_tilings 2 = 2 ∧ num_tilings 3 = 3 ∧ num_tilings 4 = 5 ∧ num_tilings 14 = 610 := by
  refine ⟨?_, ?_, ?_, ?_⟩
  · have h := num_tilings_value 2 (by norm_num) 2 (by decide)
    exact_mod_cast h
  · have h := num_tilings_value 3 (by norm_num) 3 (by decide)
    exact_mod_cast h
  · have h := num_tilings_value 4 (by norm_num) 5 (by decide)
    exact_mod_cast h
  · have h := num_tilings_value 14 (by norm_num) 610 (by decide)
    exact_mod_cast h

/-- C8: `is_valid(t, k)` returns true iff every element of `t` is in
{1, 2, 3}, every 2 is immediately followed by a 3, every 3 is immediately
preceded by a 2, and (when `k` is provided) the number of 2s equals `k`;
in particular the empty sequence with no `k` is valid. -/
theorem claim8_validator_contract :
    (∀ (t : List Int) (k : Option Int), is_valid t k = true ↔ specValid t k) ∧
    is_valid [] none = true := by
  constructor
  · intro t k
    cases k with
    | none =>
      rw [show is_valid t none = posCheck t from rfl, posCheck_iff_spec]
      unfold specValid
      constructor
      · rintro ⟨a, b, c⟩
        exact ⟨a, b, c, fun m hm => absurd hm (by simp)⟩
      · rintro ⟨a, b, c, _⟩
        exact ⟨a, b, c⟩
    | some m =>
      show (if (t.count 2 : Int) ≠ m then false else posCheck t) = true ↔ _
      by_cases hc : (t.count 2 : Int) = m
      · rw [if_neg (by simp [hc]), posCheck_iff_spec]
        unfold specValid
        constructor
        · rintro ⟨a, b, c⟩
          refine ⟨a, b, c, ?_⟩
          intro m' hm'
          injection hm' with h
          rw [← h]
          exact hc
        · rintro ⟨a, b, c, _⟩
          exact ⟨a, b, c⟩
      · rw [if_pos hc]
        constructor
        · intro h
          exact absurd h (by simp)
        · rintro ⟨_, _, _, h4⟩
          exact absurd (h4 m rfl) hc
  · decide

/-- C9: for non-negative K, N with 2K > N the recurrence counter returns 0,
so the aggregator's cap at ⌊N/2⌋ misses no nonzero term. -/
theorem claim9_half_cap (k n : Nat) (h : n < 2 * k) :
    partial_num_tilings (k : Int) (n : Int) = 0 := by
  have hne : ¬((k : Int) = 0 ∧ (n : Int) = 0) := by intro hcon; omega
  rw [partial_num_tilings_closed _ _ hne, comb_eq]
  by_cases hkn : k ≤ n
  · rw [if_pos (by omega)]
    have e1 : ((n : Int) - (k : Int)).toNat = n - k := by omega
    have e2 : ((k : Int)).toNat = k := by omega
    rw [e1, e2, Nat.choose_eq_zero_of_lt (by omega)]
    simp
  · rw [if_neg (by omega)]

theorem claim9_half_cap_witness :
    1 < 2 * 1 ∧ partial_num_tilings ((1 : Nat) : Int) ((1 : Nat) : Int) = 0 :=
  ⟨by norm_num, claim9_half_cap 1 1 (by norm_num)⟩

/-- C10: every tiling accepted by `is_valid` with no expected count has as
many 2-markers as 3-markers: each domino head is paired with one tail. -/
theorem claim10_heads_eq_tails (t : List Int) (h : is_valid t none = true) :
    t.count 2 = t.count 3 := by
  rw [is_valid_none_eq] at h
  exact structValid_count_two_eq_three t h

theorem claim10_heads_eq_tails_witness :
    is_valid [2, 3] none = true ∧
    List.count 2 [(2 : Int), 3] = List.count 3 [(2 : Int), 3] :=
  ⟨by decide, claim10_heads_eq_tails [2, 3] (by decide)⟩

end Tilings
